import Mathlib

/-!
# Shallow embedding of the p2p `TransactionsManager` (crates/net/network/src/transactions/mod.rs)

This file embeds the data model and the operations of the transactions
manager: the propagation builders (`FullTransactionsBuilder`,
`PooledTransactionsHashesBuilder`, `PropagateTransactionsBuilder`), the
propagation entry points (`propagate_transactions`,
`propagate_full_transactions_to_peer`, `propagate_hashes_to`), the
announcement validation pass of `on_new_pooled_transaction_hashes`, the
import-result handlers (`on_good_import`, `on_bad_import`,
`on_batch_import_result`), the broadcast event handler
(`on_network_tx_event` / `import_transactions`), the request handler
`on_get_pooled_transactions` and the session-establishment broadcast.

Transaction hashes and peer ids are abstracted as `Nat`.  Components of the
repository that are referenced by `mod.rs` but whose sources are not
available (the `cache`, `config` and `constants` modules, the wire message
types and the pool facade) are modelled from the specification; each such
definition carries a doc comment saying so.
-/

namespace RethTx

/-- Reputation change kinds issued by the manager
(`reth_network_types::ReputationChangeKind`, the variants used here). -/
inductive ReputationChangeKind where
  | badTransactions
  | badAnnouncement
  | alreadySeenTransaction
  | timeout
  | badProtocol
deriving DecidableEq, Repr

/-- A reputation change event: which peer and which kind. -/
abbrev RepEvent := Nat × ReputationChangeKind

/-- Negotiated wire protocol version (`reth_eth_wire::EthVersion`). -/
inductive EthVersion where
  | eth66
  | eth67
  | eth68
  | eth69
deriving DecidableEq, Repr

/-- Modelled from the spec: `DEFAULT_SOFT_LIMIT_BYTE_SIZE_TRANSACTIONS_BROADCAST_MESSAGE`
is the 128 KiB broadcast soft limit; the `constants` module is not among the
provided sources. -/
def DEFAULT_SOFT_LIMIT_BYTE_SIZE_TRANSACTIONS_BROADCAST_MESSAGE : Nat := 131072

/-- Modelled from the spec: `SOFT_LIMIT_COUNT_HASHES_IN_NEW_POOLED_TRANSACTIONS_BROADCAST_MESSAGE`
is the 4096-entry announcement soft limit; the `constants` module is not among
the provided sources. -/
def SOFT_LIMIT_COUNT_HASHES_IN_NEW_POOLED_TRANSACTIONS_BROADCAST_MESSAGE : Nat := 4096

/-- Modelled from the spec: `crate::cache::LruCache`, a bounded LRU of hashes,
insertion-ordered with strict LRU eviction by last insert; the `cache` module
is not among the provided sources.  `elems` is most-recently-inserted first. -/
structure LruCache where
  capacity : Nat
  elems : List Nat
deriving DecidableEq, Repr

/-- Membership test of the LRU cache. -/
def LruCache.containsHash (c : LruCache) (x : Nat) : Bool :=
  c.elems.contains x

/-- Modelled from the spec: LRU insert.  Returns the new cache and whether the
element was newly inserted (the source's `insert` returns `false` when the
hash was already present).  A fresh insert evicts the least-recently used
element when the capacity is exceeded. -/
def LruCache.insertHash (c : LruCache) (x : Nat) : LruCache × Bool :=
  if c.elems.contains x then
    ({ c with elems := x :: c.elems.erase x }, false)
  else
    ({ c with elems := (x :: c.elems).take c.capacity }, true)

/-- Insert a sequence of hashes, in order (the source's `extend`, and the
per-hash insertion loops of the propagation paths). -/
def LruCache.insertAllHashes (c : LruCache) (xs : List Nat) : LruCache :=
  xs.foldl (fun c x => (c.insertHash x).1) c

/-- A transaction about to be propagated (`PropagateTransaction`): its RLP
encoded size, its hash, its type byte, and whether it may be broadcast in
full (`SignedTransaction::is_broadcastable_in_full`, which is `false` exactly
for EIP-4844 blob transactions). -/
structure PropagateTransaction where
  size : Nat
  txHash : Nat
  ty : Nat
  isBroadcastableInFull : Bool
deriving DecidableEq, Repr

/-- The versioned hash message (`NewPooledTransactionHashes`): eth66/67 carry
hashes only, eth68/69 carry parallel vectors of hashes, types and sizes. -/
inductive NewPooledTransactionHashes where
  | eth66 (hashes : List Nat)
  | eth68 (hashes : List Nat) (types : List Nat) (sizes : List Nat)
deriving DecidableEq, Repr

/-- The hashes carried by the message (`iter_hashes`). -/
def NewPooledTransactionHashes.hashes : NewPooledTransactionHashes → List Nat
  | .eth66 hs => hs
  | .eth68 hs _ _ => hs

/-- Number of entries in the message (`len`). -/
def NewPooledTransactionHashes.numHashes (m : NewPooledTransactionHashes) : Nat :=
  m.hashes.length

/-- Whether the message is empty (`is_empty`). -/
def NewPooledTransactionHashes.isEmpty (m : NewPooledTransactionHashes) : Bool :=
  m.hashes.isEmpty

/-- Truncate the message to at most `n` entries (`truncate`). -/
def NewPooledTransactionHashes.truncate (m : NewPooledTransactionHashes) (n : Nat) :
    NewPooledTransactionHashes :=
  match m with
  | .eth66 hs => .eth66 (hs.take n)
  | .eth68 hs tys szs => .eth68 (hs.take n) (tys.take n) (szs.take n)

/-- `PooledTransactionsHashesBuilder`: builds the version-appropriate
announcement message. -/
inductive PooledTransactionsHashesBuilder where
  | eth66 (hashes : List Nat)
  | eth68 (hashes : List Nat) (types : List Nat) (sizes : List Nat)
deriving DecidableEq, Repr

/-- `PooledTransactionsHashesBuilder::new`: eth66/67 use the hash-only
builder, eth68/69 the metadata builder. -/
def PooledTransactionsHashesBuilder.new (v : EthVersion) : PooledTransactionsHashesBuilder :=
  match v with
  | .eth66 | .eth67 => .eth66 []
  | .eth68 | .eth69 => .eth68 [] [] []

/-- `PooledTransactionsHashesBuilder::push`. -/
def PooledTransactionsHashesBuilder.push (b : PooledTransactionsHashesBuilder)
    (tx : PropagateTransaction) : PooledTransactionsHashesBuilder :=
  match b with
  | .eth66 hs => .eth66 (hs ++ [tx.txHash])
  | .eth68 hs tys szs => .eth68 (hs ++ [tx.txHash]) (tys ++ [tx.ty]) (szs ++ [tx.size])

/-- The hashes recorded so far by the builder. -/
def PooledTransactionsHashesBuilder.hashes : PooledTransactionsHashesBuilder → List Nat
  | .eth66 hs => hs
  | .eth68 hs _ _ => hs

/-- `PooledTransactionsHashesBuilder::is_empty`. -/
def PooledTransactionsHashesBuilder.isEmpty (b : PooledTransactionsHashesBuilder) : Bool :=
  b.hashes.isEmpty

/-- `PooledTransactionsHashesBuilder::extend` (push each transaction). -/
def PooledTransactionsHashesBuilder.extendTxs (b : PooledTransactionsHashesBuilder)
    (txs : List PropagateTransaction) : PooledTransactionsHashesBuilder :=
  txs.foldl PooledTransactionsHashesBuilder.push b

/-- `PooledTransactionsHashesBuilder::build`. -/
def PooledTransactionsHashesBuilder.build :
    PooledTransactionsHashesBuilder → NewPooledTransactionHashes
  | .eth66 hs => .eth66 hs
  | .eth68 hs tys szs => .eth68 hs tys szs

/-- `FullTransactionsBuilder`: accumulates full transactions under the
broadcast byte soft limit, spilling the rest into a hash-announce builder. -/
structure FullTransactionsBuilder where
  total_size : Nat
  transactions : List PropagateTransaction
  pooled : PooledTransactionsHashesBuilder
deriving DecidableEq, Repr

/-- `FullTransactionsBuilder::new`. -/
def FullTransactionsBuilder.new (v : EthVersion) : FullTransactionsBuilder :=
  { total_size := 0, transactions := [], pooled := PooledTransactionsHashesBuilder.new v }

/-- `FullTransactionsBuilder::push`: an EIP-4844 transaction always goes to
the spill bucket; otherwise the transaction is added to the full bucket
unless adding it would exceed the byte soft limit while the bucket is
non-empty, in which case it goes to the spill bucket. -/
def FullTransactionsBuilder.push (b : FullTransactionsBuilder)
    (tx : PropagateTransaction) : FullTransactionsBuilder :=
  if !tx.isBroadcastableInFull then
    { b with pooled := b.pooled.push tx }
  else
    let new_size := b.total_size + tx.size
    if new_size > DEFAULT_SOFT_LIMIT_BYTE_SIZE_TRANSACTIONS_BROADCAST_MESSAGE ∧
        0 < b.total_size then
      { b with pooled := b.pooled.push tx }
    else
      { b with total_size := new_size, transactions := b.transactions ++ [tx] }

/-- `FullTransactionsBuilder::extend`. -/
def FullTransactionsBuilder.extendTxs (b : FullTransactionsBuilder)
    (txs : List PropagateTransaction) : FullTransactionsBuilder :=
  txs.foldl FullTransactionsBuilder.push b

/-- `FullTransactionsBuilder::is_empty`. -/
def FullTransactionsBuilder.isEmptyBuilder (b : FullTransactionsBuilder) : Bool :=
  b.transactions.isEmpty && b.pooled.isEmpty

/-- `PropagateTransactions`: the messages that should be sent to a peer. -/
structure PropagateTransactionsMsgs where
  pooled : Option NewPooledTransactionHashes
  full : Option (List PropagateTransaction)
deriving DecidableEq, Repr

/-- `FullTransactionsBuilder::build`: emit the spill announcement and the
full list, each only when non-empty. -/
def FullTransactionsBuilder.build (b : FullTransactionsBuilder) : PropagateTransactionsMsgs :=
  { pooled := if b.pooled.isEmpty then none else some b.pooled.build
    full := if b.transactions.isEmpty then none else some b.transactions }

/-- `PropagateTransactionsBuilder`: per-peer choice between hash-only and
full propagation. -/
inductive PropagateTransactionsBuilder where
  | pooled (b : PooledTransactionsHashesBuilder)
  | full (b : FullTransactionsBuilder)
deriving DecidableEq, Repr

/-- `PropagateTransactionsBuilder::pooled`. -/
def PropagateTransactionsBuilder.newPooled (v : EthVersion) : PropagateTransactionsBuilder :=
  .pooled (PooledTransactionsHashesBuilder.new v)

/-- `PropagateTransactionsBuilder::full`. -/
def PropagateTransactionsBuilder.newFull (v : EthVersion) : PropagateTransactionsBuilder :=
  .full (FullTransactionsBuilder.new v)

/-- `PropagateTransactionsBuilder::is_empty`. -/
def PropagateTransactionsBuilder.isEmptyBuilder : PropagateTransactionsBuilder → Bool
  | .pooled b => b.isEmpty
  | .full b => b.isEmptyBuilder

/-- `PropagateTransactionsBuilder::push`. -/
def PropagateTransactionsBuilder.push (b : PropagateTransactionsBuilder)
    (tx : PropagateTransaction) : PropagateTransactionsBuilder :=
  match b with
  | .pooled b => .pooled (b.push tx)
  | .full b => .full (b.push tx)

/-- `PropagateTransactionsBuilder::extend`. -/
def PropagateTransactionsBuilder.extendTxs (b : PropagateTransactionsBuilder)
    (txs : List PropagateTransaction) : PropagateTransactionsBuilder :=
  txs.foldl PropagateTransactionsBuilder.push b

/-- `PropagateTransactionsBuilder::build`: a hash-only builder always emits
its announcement; a full builder defers to `FullTransactionsBuilder::build`. -/
def PropagateTransactionsBuilder.build : PropagateTransactionsBuilder → PropagateTransactionsMsgs
  | .pooled b => { pooled := some b.build, full := none }
  | .full b => b.build

/-- Sum of the encoded sizes of a list of transactions: the total encoded
byte size of a full `Transactions` broadcast message. -/
def sumSizes (txs : List PropagateTransaction) : Nat :=
  (txs.map PropagateTransaction.size).sum

/-- `PeerMetadata` as the propagation paths use it: the peer's bounded LRU
seen-set, the negotiated version, and (modelled from the spec: the pluggable
`TransactionPropagationPolicy` of the `config`/`policy` modules, not among
the provided sources) whether `can_propagate` holds for this peer. -/
structure Peer where
  id : Nat
  seen : LruCache
  version : EthVersion
  canPropagate : Bool
deriving DecidableEq, Repr

/-- An outbound send: either `send_transactions_hashes` or
`send_transactions`. -/
inductive SentMsg where
  | hashesMsg (msg : NewPooledTransactionHashes)
  | fullMsg (txs : List PropagateTransaction)
deriving DecidableEq, Repr

/-- The hashes dispatched by a send. -/
def SentMsg.sentHashes : SentMsg → List Nat
  | .hashesMsg m => m.hashes
  | .fullMsg txs => txs.map PropagateTransaction.txHash

/-- Whether the send is a full `Transactions` message. -/
def SentMsg.isFull : SentMsg → Bool
  | .hashesMsg _ => false
  | .fullMsg _ => true

/-- The outcome of `propagate_transactions` at one peer: the updated peer
metadata and the messages sent to it. -/
structure PeerPropagationResult where
  peer : Peer
  msgs : List SentMsg
deriving DecidableEq, Repr

/-- The send block of one `propagate_transactions` iteration: send the hash
announcement truncated to the soft limit, then the full message, inserting
each dispatched hash into the peer's seen set before its send. -/
def sendBuiltToPeer (p : Peer) (msgs : PropagateTransactionsMsgs) : PeerPropagationResult :=
  let step1 : List SentMsg × LruCache :=
    match msgs.pooled with
    | none => ([], p.seen)
    | some m =>
      let m := m.truncate SOFT_LIMIT_COUNT_HASHES_IN_NEW_POOLED_TRANSACTIONS_BROADCAST_MESSAGE
      ([.hashesMsg m], p.seen.insertAllHashes m.hashes)
  let step2 : List SentMsg × LruCache :=
    match msgs.full with
    | none => ([], step1.2)
    | some txs =>
      ([.fullMsg txs], step1.2.insertAllHashes (txs.map PropagateTransaction.txHash))
  ⟨{ p with seen := step2.2 }, step1.1 ++ step2.1⟩

/-- One iteration of the peer loop in
`TransactionsManager::propagate_transactions`: skip if the policy rejects the
peer; pick the full builder when `peer_idx ≤ max_num_full` and the hash-only
builder otherwise; in forced mode push everything, in basic mode push only
transactions the peer has not seen. -/
def builderForPeer (maxNumFull peerIdx : Nat) (toPropagate : List PropagateTransaction)
    (forced : Bool) (p : Peer) : PropagateTransactionsBuilder :=
  let builder := if peerIdx > maxNumFull then PropagateTransactionsBuilder.newPooled p.version
    else PropagateTransactionsBuilder.newFull p.version
  if forced then builder.extendTxs toPropagate
  else toPropagate.foldl
    (fun b tx => if p.seen.containsHash tx.txHash then b else b.push tx) builder

/-- One iteration of the peer loop in
`TransactionsManager::propagate_transactions`: skip if the policy rejects the
peer, build via `builderForPeer`, skip if nothing was recorded, otherwise
dispatch via `sendBuiltToPeer`. -/
def processPeerPropagation (maxNumFull peerIdx : Nat) (toPropagate : List PropagateTransaction)
    (forced : Bool) (p : Peer) : PeerPropagationResult :=
  if !p.canPropagate then ⟨p, []⟩
  else if (builderForPeer maxNumFull peerIdx toPropagate forced p).isEmptyBuilder then ⟨p, []⟩
  else sendBuiltToPeer p (builderForPeer maxNumFull peerIdx toPropagate forced p).build

/-- The peer loop of `TransactionsManager::propagate_transactions`, with the
`enumerate()` index made explicit (the peers map is modelled as a list in
iteration order). -/
def propagatePeersLoop (maxNumFull : Nat) (toPropagate : List PropagateTransaction)
    (forced : Bool) : Nat → List Peer → List PeerPropagationResult
  | _, [] => []
  | idx, p :: ps =>
    processPeerPropagation maxNumFull idx toPropagate forced p ::
      propagatePeersLoop maxNumFull toPropagate forced (idx + 1) ps

/-- Modelled from the spec: the default `TransactionPropagationMode` yields
`max_full = f(N) = ⌈√N⌉`, computed here as the least `m` with `N ≤ m²`; the
`config` module defining `full_peer_count` is not among the provided
sources. -/
def fullPeerCount (peerCount : Nat) : Nat :=
  ((List.range (peerCount + 1)).find? (fun m => peerCount ≤ m * m)).getD peerCount

/-- `TransactionsManager::propagate_transactions`: returns early when gossip
is disabled, otherwise runs the peer loop with
`max_num_full = full_peer_count(peers.len())`. -/
def propagate_transactions (txGossipDisabled : Bool) (peers : List Peer)
    (toPropagate : List PropagateTransaction) (forced : Bool) : List PeerPropagationResult :=
  if txGossipDisabled then []
  else propagatePeersLoop (fullPeerCount peers.length) toPropagate forced 0 peers

/-- Whether this peer received a full `Transactions` message. -/
def PeerPropagationResult.receivedFull (r : PeerPropagationResult) : Bool :=
  r.msgs.any SentMsg.isFull

/-- Whether this peer received a `NewPooledTransactionHashes` message. -/
def PeerPropagationResult.receivedHashes (r : PeerPropagationResult) : Bool :=
  r.msgs.any (fun m => !m.isFull)

/-- Number of peers that received a full `Transactions` message. -/
def countFullRecipients (rs : List PeerPropagationResult) : Nat :=
  (rs.filter PeerPropagationResult.receivedFull).length

/-- Number of peers that received a `NewPooledTransactionHashes` message. -/
def countHashRecipients (rs : List PeerPropagationResult) : Nat :=
  (rs.filter PeerPropagationResult.receivedHashes).length

/-- Specification-side measure: number of entries a propagation builder has
recorded (spill hashes plus full transactions). -/
def PropagateTransactionsBuilder.entriesCount : PropagateTransactionsBuilder → Nat
  | .pooled b => b.hashes.length
  | .full b => b.pooled.hashes.length + b.transactions.length

/-- Specification-side measure: number of entries a full-transactions
builder has recorded. -/
def FullTransactionsBuilder.entriesCountFull (b : FullTransactionsBuilder) : Nat :=
  b.pooled.hashes.length + b.transactions.length

/-- The send block of `propagate_full_transactions_to_peer`: send the spill
announcement (not truncated on this path) and the full message, inserting
each dispatched hash into the peer's seen set before its send. -/
def sendBuiltFullToPeer (p : Peer) (msgs : PropagateTransactionsMsgs) :
    Peer × List SentMsg :=
  let step1 : List SentMsg × LruCache :=
    match msgs.pooled with
    | none => ([], p.seen)
    | some m => ([.hashesMsg m], p.seen.insertAllHashes m.hashes)
  let step2 : List SentMsg × LruCache :=
    match msgs.full with
    | none => ([], step1.2)
    | some txs =>
      ([.fullMsg txs], step1.2.insertAllHashes (txs.map PropagateTransaction.txHash))
  ({ p with seen := step2.2 }, step1.1 ++ step2.1)

/-- `TransactionsManager::propagate_full_transactions_to_peer`: the pool
lookup `pool.get_all(txs)` is modelled by passing the fetched transactions
directly; the full-transactions builder pushes everything in forced mode and
only unseen transactions in basic mode. -/
def fullBuilderForPeer (p : Peer) (toPropagate : List PropagateTransaction)
    (forced : Bool) : FullTransactionsBuilder :=
  let builder := FullTransactionsBuilder.new p.version
  if forced then builder.extendTxs toPropagate
  else toPropagate.foldl
    (fun b tx => if p.seen.containsHash tx.txHash then b else b.push tx) builder

/-- `TransactionsManager::propagate_full_transactions_to_peer`: nothing is
sent when the builder stayed empty, otherwise dispatch via
`sendBuiltFullToPeer`. -/
def propagate_full_transactions_to_peer (p : Peer) (toPropagate : List PropagateTransaction)
    (forced : Bool) : Option (Peer × List SentMsg) :=
  if (fullBuilderForPeer p toPropagate forced).isEmptyBuilder then none
  else some (sendBuiltFullToPeer p (fullBuilderForPeer p toPropagate forced).build)

/-- `TransactionsManager::propagate_hashes_to`: builds the announcement from
the pool transactions (all of them in forced mode, the unseen ones in basic
mode) and sends it; the source inserts nothing into the peer's seen set on
this path, so the peer metadata is returned unchanged. -/
def propagate_hashes_to (p : Peer) (toPropagate : List PropagateTransaction)
    (forced : Bool) : Option (Peer × NewPooledTransactionHashes) :=
  let b := PooledTransactionsHashesBuilder.new p.version
  let b := if forced then b.extendTxs toPropagate
    else toPropagate.foldl
      (fun b tx => if p.seen.containsHash tx.txHash then b else b.push tx) b
  let msg := b.build
  if msg.isEmpty then none
  else some (p, msg)

/-- Outcome of `on_get_pooled_transactions`: the updated peer metadata (when
the peer is known), the `Ok` response (the hashes of the returned
transactions), and whether the pool was queried. -/
structure GetPooledOutcome where
  peer : Option Peer
  response : Option (List Nat)
  pooledQueried : Bool
deriving DecidableEq, Repr

/-- `TransactionsManager::on_get_pooled_transactions`: an unknown peer gets
no response at all (the channel is dropped); a known peer with gossip
disabled gets `Ok` with an empty `PooledTransactions` without a pool query
or a seen-set update; otherwise the pool is queried under the response byte
soft limit (modelled from the spec as an oracle `poolElements` giving the
hashes of the returned transactions), the returned hashes are marked seen,
and the response is sent. -/
def on_get_pooled_transactions (knownPeer : Option Peer) (txGossipDisabled : Bool)
    (poolElements : List Nat → List Nat) (request : List Nat) : GetPooledOutcome :=
  match knownPeer with
  | none => ⟨none, none, false⟩
  | some p =>
    if txGossipDisabled then ⟨some p, some [], false⟩
    else
      let returned := poolElements request
      ⟨some { p with seen := p.seen.insertAllHashes returned }, some returned, true⟩

/-- The broadcast part of `TransactionsManager::handle_peer_session`: skipped
while initially syncing or with gossip disabled; otherwise up to
`SOFT_LIMIT_COUNT_HASHES_IN_NEW_POOLED_TRANSACTIONS_BROADCAST_MESSAGE` pool
transactions (modelled from the spec: `pool.pooled_transactions_max(n)`
returns at most `n` pool transactions, here the first `n`) are marked seen
and announced in a single version-appropriate message. -/
def handle_peer_session_broadcast (isInitiallySyncing txGossipDisabled : Bool)
    (poolTxs : List PropagateTransaction) (p : Peer) :
    Option (Peer × NewPooledTransactionHashes) :=
  if isInitiallySyncing || txGossipDisabled then none
  else
    let pooledTxs :=
      poolTxs.take SOFT_LIMIT_COUNT_HASHES_IN_NEW_POOLED_TRANSACTIONS_BROADCAST_MESSAGE
    if pooledTxs.isEmpty then none
    else
      let p' :=
        { p with seen := p.seen.insertAllHashes (pooledTxs.map PropagateTransaction.txHash) }
      some (p', ((PooledTransactionsHashesBuilder.new p.version).extendTxs pooledTxs).build)

/-- The outcome of the announcement filter policy for one entry
(`config::AnnouncementAcceptance`). -/
inductive AnnouncementAcceptance where
  | accept
  | ignore
  | reject (penalize_peer : Bool)
deriving DecidableEq, Repr

/-- Whether the decision is `Accept`. -/
def AnnouncementAcceptance.isAccept : AnnouncementAcceptance → Bool
  | .accept => true
  | _ => false

/-- Whether the decision is `Reject { penalize_peer: true }`. -/
def AnnouncementAcceptance.isRejectPenalize : AnnouncementAcceptance → Bool
  | .reject true => true
  | _ => false

/-- One entry of a partially valid announcement after dedup and pool
filtering: the hash and, when present, the `(type, size)` metadata. -/
structure AnnEntry where
  txHash : Nat
  metadata : Option (Nat × Nat)
deriving DecidableEq, Repr

/-- One step of the `retain` closure in
`TransactionsManager::on_new_pooled_transaction_hashes` (version conformance
plus filter policy): returns whether the entry is kept and the updated
`should_report_peer` flag.  The pluggable filter policy
`decide_on_announcement` (type byte, hash, size) is the parameter
`decideFn`. -/
def announcementEntryStep (decideFn : Nat → Nat → Nat → AnnouncementAcceptance)
    (isEth68 : Bool) (flag : Bool) (e : AnnEntry) : Bool × Bool :=
  match e.metadata with
  | some (ty, size) =>
    let flag := if !isEth68 then true else flag
    match decideFn ty e.txHash size with
    | .accept => (true, flag)
    | .ignore => (false, flag)
    | .reject pen => (false, if pen then true else flag)
  | none =>
    if isEth68 then (false, true)
    else
      match decideFn 0 e.txHash 0 with
      | .accept => (true, flag)
      | .ignore => (false, flag)
      | .reject pen => (false, if pen then true else flag)

/-- The version-conformance and filter-policy pass over the deduplicated,
pool-filtered announcement entries, threading the `should_report_peer` flag
through the `retain`. -/
def filterAnnouncementEntries (decideFn : Nat → Nat → Nat → AnnouncementAcceptance)
    (isEth68 : Bool) (entries : List AnnEntry) : List AnnEntry × Bool :=
  entries.foldl
    (fun acc e =>
      let r := announcementEntryStep decideFn isEth68 acc.2 e
      (if r.1 then acc.1 ++ [e] else acc.1, r.2))
    ([], false)

/-- The single `BadAnnouncement` penalty emitted for the whole message when
the `should_report_peer` flag was raised. -/
def announcementPenalties (peerId : Nat) (flag : Bool) : List RepEvent :=
  if flag then [(peerId, ReputationChangeKind.badAnnouncement)] else []

/-- Specification-side characterization: which entries the
version-conformance and filter-policy pass keeps. -/
def annKeepPred (decideFn : Nat → Nat → Nat → AnnouncementAcceptance) (isEth68 : Bool)
    (e : AnnEntry) : Bool :=
  match e.metadata with
  | some (ty, size) => (decideFn ty e.txHash size).isAccept
  | none => if isEth68 then false else (decideFn 0 e.txHash 0).isAccept

/-- Specification-side characterization: which entries raise the
`should_report_peer` flag. -/
def annFlagPred (decideFn : Nat → Nat → Nat → AnnouncementAcceptance) (isEth68 : Bool)
    (e : AnnEntry) : Bool :=
  match e.metadata with
  | some (ty, size) => !isEth68 || (decideFn ty e.txHash size).isRejectPenalize
  | none => isEth68 || (decideFn 0 e.txHash 0).isRejectPenalize

/-- The pending-by-peer table `transactions_by_peers`
(`HashMap<TxHash, HashSet<PeerId>>`, modelled as an association list in
insertion order). -/
abbrev TransactionsByPeers := List (Nat × List Nat)

/-- Look up the peer set recorded for a hash. -/
def lookupEntry (m : TransactionsByPeers) (h : Nat) : Option (List Nat) :=
  (m.find? (fun e => e.1 == h)).map (fun e => e.2)

/-- Remove the entry for a hash (`HashMap::remove`). -/
def removeEntry (m : TransactionsByPeers) (h : Nat) : TransactionsByPeers :=
  m.filter (fun e => e.1 != h)

/-- Whether the table has an entry for the hash (`contains_key`). -/
def hasEntry (m : TransactionsByPeers) (h : Nat) : Bool :=
  m.any (fun e => e.1 == h)

/-- Add a peer to an existing entry (`entry.get_mut().insert(peer_id)`). -/
def addPeerToEntry (m : TransactionsByPeers) (h pid : Nat) : TransactionsByPeers :=
  m.map (fun e =>
    if e.1 == h then (e.1, if e.2.contains pid then e.2 else e.2 ++ [pid]) else e)

/-- Insert a fresh entry `{peer}` for a hash (`entry.insert(HashSet::from([peer_id]))`). -/
def insertEntry (m : TransactionsByPeers) (h pid : Nat) : TransactionsByPeers :=
  m ++ [(h, [pid])]

/-- A pool import error (`PoolError`): the offending hash and — modelled from
the spec: `PoolError::is_bad_transaction` classifies consensus-level bad
transactions and its source is not provided — whether the failure is
consensus-level bad. -/
structure PoolError where
  hash : Nat
  isBadTransaction : Bool
deriving DecidableEq, Repr

/-- One per-transaction pool import result
(`PoolResult<AddedTransactionOutcome>`). -/
inductive ImportOutcome where
  | ok (hash : Nat)
  | err (e : PoolError)
deriving DecidableEq, Repr

/-- The hash an import result is about. -/
def ImportOutcome.hash : ImportOutcome → Nat
  | .ok h => h
  | .err e => e.hash

/-- The manager state touched by the import pipeline and the broadcast event
handler.  `fetcherPending` and `fetcherInflight` are modelled from the spec:
the fetcher module is not among the provided sources, and only
`remove_hashes_from_transaction_fetcher` (dropping hashes from both sets) is
needed here.  `poolImportQueue` records the batches pushed to
`pool_imports`. -/
structure ManagerState where
  peers : List Peer
  transactionsByPeers : TransactionsByPeers
  badImports : LruCache
  fetcherPending : List Nat
  fetcherInflight : List Nat
  poolImportQueue : List (List Nat)
  isInitiallySyncing : Bool
  isSyncing : Bool
  txGossipDisabled : Bool
deriving DecidableEq, Repr

/-- `TransactionsManager::on_good_import`: clear the pending-by-peer entry. -/
def on_good_import (st : ManagerState) (hash : Nat) : ManagerState :=
  { st with transactionsByPeers := removeEntry st.transactionsByPeers hash }

/-- `TransactionsManager::on_bad_import`: always consume the pending-by-peer
entry first; then, unless the failure is not consensus-level bad or the node
is currently syncing, penalize every recorded sender with `BadTransactions`
and insert the hash into the bad-import cache. -/
def on_bad_import (st : ManagerState) (err : PoolError) : ManagerState × List RepEvent :=
  let peers := lookupEntry st.transactionsByPeers err.hash
  let st1 := { st with transactionsByPeers := removeEntry st.transactionsByPeers err.hash }
  if !err.isBadTransaction || st1.isSyncing then (st1, [])
  else
    let evs := (peers.getD []).map (fun pid => (pid, ReputationChangeKind.badTransactions))
    ({ st1 with badImports := (st1.badImports.insertHash err.hash).1 }, evs)

/-- `TransactionsManager::on_batch_import_result`: process each result in
order, accumulating reputation events. -/
def on_batch_import_result (st : ManagerState) (results : List ImportOutcome) :
    ManagerState × List RepEvent :=
  results.foldl
    (fun acc r =>
      match r with
      | .ok h => (on_good_import acc.1 h, acc.2)
      | .err e =>
        let s := on_bad_import acc.1 e
        (s.1, acc.2 ++ s.2))
    (st, [])

/-- An incoming transaction of a `Transactions` broadcast: its hash, whether
it is an EIP-4844 blob transaction, and whether signature recovery
(`try_into_recovered`) succeeds. -/
structure IncomingTx where
  txHash : Nat
  isEip4844 : Bool
  recoverOk : Bool
deriving DecidableEq, Repr

/-- How the transactions were received (`TransactionSource`). -/
inductive TransactionSource where
  | broadcast
  | response
deriving DecidableEq, Repr

/-- `TransactionSource::is_broadcast`. -/
def TransactionSource.isBroadcast : TransactionSource → Bool
  | .broadcast => true
  | .response => false

/-- Find a connected peer by id (`self.peers.get_mut(&peer_id)`). -/
def findPeer (peers : List Peer) (pid : Nat) : Option Peer :=
  peers.find? (fun p => p.id == pid)

/-- Write back the mutated peer metadata. -/
def updatePeer (peers : List Peer) (pid : Nat) (p' : Peer) : List Peer :=
  peers.map (fun p => if p.id == pid then p' else p)

/-- `TransactionsManager::import_transactions`: returns untouched while
initially syncing or with gossip disabled, or when the peer is unknown.
Otherwise removes the received hashes from the fetcher, marks broadcast
transactions as seen by the peer (counting collisions), drops transactions
the pool already knows (`retain_unknown`, modelled as the oracle
`poolKnows`), classifies each remaining transaction against signature
recovery, the pending-by-peer table and the bad-import cache, queues the
genuinely new hashes as one batch, and finally reports `BadTransactions`
and/or `AlreadySeenTransaction`. -/
def import_transactions (poolKnows : Nat → Bool) (st : ManagerState) (peerId : Nat)
    (transactions : List IncomingTx) (source : TransactionSource) :
    ManagerState × List RepEvent :=
  if st.isInitiallySyncing then (st, [])
  else if st.txGossipDisabled then (st, [])
  else
    match findPeer st.peers peerId with
    | none => (st, [])
    | some peer =>
      let hashes := transactions.map IncomingTx.txHash
      let st := { st with
        fetcherPending := st.fetcherPending.filter (fun h => !hashes.contains h)
        fetcherInflight := st.fetcherInflight.filter (fun h => !hashes.contains h) }
      let seenFold := transactions.foldl
        (fun (acc : LruCache × Nat) tx =>
          if source.isBroadcast then
            let r := acc.1.insertHash tx.txHash
            (r.1, if r.2 then acc.2 else acc.2 + 1)
          else acc)
        (peer.seen, 0)
      let numAlreadySeenByPeer := seenFold.2
      let peer := { peer with seen := seenFold.1 }
      let st := { st with peers := updatePeer st.peers peerId peer }
      let retained := transactions.filter (fun tx => !poolKnows tx.txHash)
      let classify := retained.foldl
        (fun (acc : TransactionsByPeers × Bool × List Nat) tx =>
          match acc with
          | (tbp, badFlag, newTxs) =>
            if !tx.recoverOk then (tbp, true, newTxs)
            else if hasEntry tbp tx.txHash then
              (addPeerToEntry tbp tx.txHash peerId, badFlag, newTxs)
            else if st.badImports.containsHash tx.txHash then (tbp, true, newTxs)
            else (insertEntry tbp tx.txHash peerId, badFlag, newTxs ++ [tx.txHash]))
        (st.transactionsByPeers, false, ([] : List Nat))
      let st := { st with transactionsByPeers := classify.1 }
      let st := if classify.2.2.isEmpty then st
        else { st with poolImportQueue := st.poolImportQueue ++ [classify.2.2] }
      let evs :=
        (if classify.2.1 then [(peerId, ReputationChangeKind.badTransactions)] else []) ++
          (if 0 < numAlreadySeenByPeer then
            [(peerId, ReputationChangeKind.alreadySeenTransaction)]
          else [])
      (st, evs)

/-- The `IncomingTransactions` arm of
`TransactionsManager::on_network_tx_event`: strip blob transactions (the
`try_from` conversion to a pooled transaction fails for EIP-4844), import
the rest via the broadcast path, and penalize the sender once with
`BadTransactions` when blobs were present — a penalty that is applied
regardless of the sync state.  This path performs no outbound send. -/
def on_incoming_transactions (poolKnows : Nat → Bool) (st : ManagerState) (peerId : Nat)
    (msg : List IncomingTx) : ManagerState × List RepEvent :=
  let hasBlobTxs := msg.any IncomingTx.isEip4844
  let nonBlob := msg.filter (fun tx => !tx.isEip4844)
  let r := import_transactions poolKnows st peerId nonBlob .broadcast
  (r.1, r.2 ++ if hasBlobTxs then [(peerId, ReputationChangeKind.badTransactions)] else [])

/-- Sixteen connected peers, all eligible for propagation, with empty
seen-sets of the default capacity. -/
def peersSixteen : List Peer :=
  (List.range 16).map (fun i => ⟨i, ⟨10240, []⟩, .eth68, true⟩)

/-- A single small non-blob transaction. -/
def smallTx : PropagateTransaction := ⟨100, 999, 2, true⟩

/-- Invariant of `FullTransactionsBuilder` maintained by `push` (for
transactions of positive encoded size): `total_size` is the byte size of the
accumulated full bucket, a non-empty bucket has positive size, and the bucket
exceeds the broadcast soft limit only when it holds a single transaction. -/
def FullBuilderInv (b : FullTransactionsBuilder) : Prop :=
  b.total_size = sumSizes b.transactions ∧
  (b.transactions ≠ [] → 0 < b.total_size) ∧
  (DEFAULT_SOFT_LIMIT_BYTE_SIZE_TRANSACTIONS_BROADCAST_MESSAGE < b.total_size →
    b.transactions.length = 1)

theorem sumSizes_append (l : List PropagateTransaction) (tx : PropagateTransaction) :
    sumSizes (l ++ [tx]) = sumSizes l + tx.size := by
  simp [sumSizes]

theorem fullBuilderInv_new (v : EthVersion) :
    FullBuilderInv (FullTransactionsBuilder.new v) := by
  refine ⟨by simp [FullTransactionsBuilder.new, sumSizes], ?_, ?_⟩ <;>
    simp [FullTransactionsBuilder.new]

theorem fullBuilderInv_push {b : FullTransactionsBuilder} {tx : PropagateTransaction}
    (hb : FullBuilderInv b) (hpos : 0 < tx.size) : FullBuilderInv (b.push tx) := by
  obtain ⟨h1, h2, h3⟩ := hb
  unfold FullTransactionsBuilder.push
  split
  · exact ⟨h1, h2, h3⟩
  · dsimp only
    split
    · exact ⟨h1, h2, h3⟩
    · rename_i hfit
      refine ⟨?_, ?_, ?_⟩
      · simpa [sumSizes_append] using congrArg (· + tx.size) h1
      · exact fun _ => Nat.add_pos_right _ hpos
      · intro hbig
        have htot0 : b.total_size = 0 := by
          by_contra h0
          exact hfit ⟨hbig, Nat.pos_of_ne_zero h0⟩
        have hempty : b.transactions = [] := by
          by_contra hne
          exact absurd (h2 hne) (by omega)
        simp [hempty]

theorem fullBuilderInv_foldl (txs : List PropagateTransaction) :
    ∀ b : FullTransactionsBuilder, FullBuilderInv b → (∀ tx ∈ txs, 0 < tx.size) →
      FullBuilderInv (txs.foldl FullTransactionsBuilder.push b) := by
  induction txs with
  | nil => exact fun b hb _ => hb
  | cons t ts ih =>
    intro b hb hpos
    exact ih _ (fullBuilderInv_push hb (hpos t (by simp)))
      (fun tx h => hpos tx (by simp [h]))

/-- C5: for every sequence of transactions of positive encoded size pushed
into the full-broadcast builder, the built full `Transactions` message
exceeds the 128 KiB broadcast soft limit only if it contains exactly one
transaction. -/
theorem full_broadcast_message_soft_limit (v : EthVersion) (txs : List PropagateTransaction)
    (hpos : ∀ tx ∈ txs, 0 < tx.size) (msg : List PropagateTransaction)
    (hmsg : (txs.foldl FullTransactionsBuilder.push (FullTransactionsBuilder.new v)).build.full
      = some msg)
    (hbig : DEFAULT_SOFT_LIMIT_BYTE_SIZE_TRANSACTIONS_BROADCAST_MESSAGE < sumSizes msg) :
    msg.length = 1 := by
  obtain ⟨h1, h2, h3⟩ := fullBuilderInv_foldl txs _ (fullBuilderInv_new v) hpos
  simp only [FullTransactionsBuilder.build] at hmsg
  split at hmsg
  · exact absurd hmsg (by simp)
  · have hmsg' :
        (txs.foldl FullTransactionsBuilder.push (FullTransactionsBuilder.new v)).transactions
          = msg := by
      exact Option.some_injective _ hmsg
    rw [hmsg'] at h1 h3
    exact h3 (by omega)

/-- Witness for C5 at a single oversized transaction. -/
theorem full_broadcast_message_soft_limit_witness :
    (([⟨200000, 1, 0, true⟩] : List PropagateTransaction).foldl FullTransactionsBuilder.push
        (FullTransactionsBuilder.new .eth68)).build.full
      = some [⟨200000, 1, 0, true⟩] ∧
    DEFAULT_SOFT_LIMIT_BYTE_SIZE_TRANSACTIONS_BROADCAST_MESSAGE
        < sumSizes [⟨200000, 1, 0, true⟩] ∧
    ([⟨200000, 1, 0, true⟩] : List PropagateTransaction).length = 1 :=
  ⟨by decide, by decide,
    full_broadcast_message_soft_limit .eth68 [⟨200000, 1, 0, true⟩] (by decide)
      [⟨200000, 1, 0, true⟩] (by decide) (by decide)⟩

/-- C6 counterexample: with the soft limit 131072, pushing transactions of
sizes 100000, 60000, 20000 (hashes 1, 2, 3), the second transaction
overflows and is spilled, yet the third, later transaction is still added to
the full bucket — so "the overflowing transaction and every subsequently
pushed transaction are routed to the spill hash-announce bucket" is false. -/
theorem full_builder_spill_not_sticky_counterexample :
    (([⟨100000, 1, 0, true⟩, ⟨60000, 2, 0, true⟩, ⟨20000, 3, 0, true⟩] :
        List PropagateTransaction).foldl FullTransactionsBuilder.push
        (FullTransactionsBuilder.new .eth68)).transactions.map PropagateTransaction.txHash
      = [1, 3] ∧
    (([⟨100000, 1, 0, true⟩, ⟨60000, 2, 0, true⟩, ⟨20000, 3, 0, true⟩] :
        List PropagateTransaction).foldl FullTransactionsBuilder.push
        (FullTransactionsBuilder.new .eth68)).pooled.hashes
      = [2] := by
  decide

/-- C6 amended: routing in the full-broadcast builder is decided per pushed
transaction by the current fit check, not by a sticky overflow state: a
broadcastable transaction is spilled to the hash-announce bucket exactly when
adding it would exceed the soft limit while the full bucket is non-empty;
otherwise it is added to the full bucket (even after an earlier overflow). -/
theorem full_builder_push_routing (b : FullTransactionsBuilder) (tx : PropagateTransaction)
    (hb : tx.isBroadcastableInFull = true) :
    (DEFAULT_SOFT_LIMIT_BYTE_SIZE_TRANSACTIONS_BROADCAST_MESSAGE < b.total_size + tx.size ∧
        0 < b.total_size →
      (b.push tx).transactions = b.transactions ∧ (b.push tx).pooled = b.pooled.push tx) ∧
    (b.total_size + tx.size ≤ DEFAULT_SOFT_LIMIT_BYTE_SIZE_TRANSACTIONS_BROADCAST_MESSAGE ∨
        b.total_size = 0 →
      (b.push tx).transactions = b.transactions ++ [tx] ∧ (b.push tx).pooled = b.pooled) := by
  unfold FullTransactionsBuilder.push
  simp only [hb, Bool.not_true]
  constructor
  · intro h
    rw [if_neg (by simp), if_pos (by omega)]
    exact ⟨rfl, rfl⟩
  · intro h
    rw [if_neg (by simp), if_neg (by omega)]
    exact ⟨rfl, rfl⟩

/-- Witness for C6 amended: a transaction that fits is added to the full
bucket even though the builder has already spilled. -/
theorem full_builder_push_routing_witness :
    ((⟨100000, [⟨100000, 1, 0, true⟩], .eth66 [2]⟩ :
        FullTransactionsBuilder).push ⟨20000, 3, 0, true⟩).transactions
      = [⟨100000, 1, 0, true⟩, ⟨20000, 3, 0, true⟩] ∧
    ((⟨100000, [⟨100000, 1, 0, true⟩], .eth66 [2]⟩ :
        FullTransactionsBuilder).push ⟨20000, 3, 0, true⟩).pooled = .eth66 [2] :=
  (full_builder_push_routing ⟨100000, [⟨100000, 1, 0, true⟩], .eth66 [2]⟩
    ⟨20000, 3, 0, true⟩ rfl).2 (by decide)

/-- C10: for an incoming `GetPooledTransactions` request, an unknown peer
gets no response of any kind (whatever the gossip setting), and a known peer
with transaction gossip disabled gets `Ok` with an empty `PooledTransactions`
while the peer's metadata (including its seen-set) is untouched and the pool
is not queried. -/
theorem get_pooled_transactions_gating (p : Peer) (poolElements : List Nat → List Nat)
    (request : List Nat) :
    on_get_pooled_transactions none true poolElements request
        = ⟨none, none, false⟩ ∧
    on_get_pooled_transactions none false poolElements request
        = ⟨none, none, false⟩ ∧
    on_get_pooled_transactions (some p) true poolElements request
        = ⟨some p, some [], false⟩ :=
  ⟨rfl, rfl, rfl⟩

/-- C4 amended: while initially syncing, an incoming `Transactions`
broadcast leaves the manager state completely unchanged (no pool import is
queued, no pending-by-peer entry is created) and performs no outbound send,
but if the broadcast contains blob transactions the sending peer is still
penalized once with `BadTransactions`; without blob transactions there is no
reputation change. -/
theorem broadcast_ignored_during_initial_sync (poolKnows : Nat → Bool) (st : ManagerState)
    (peerId : Nat) (msg : List IncomingTx) (hsync : st.isInitiallySyncing = true) :
    (on_incoming_transactions poolKnows st peerId msg).1 = st ∧
    (on_incoming_transactions poolKnows st peerId msg).2
      = if msg.any IncomingTx.isEip4844 then [(peerId, ReputationChangeKind.badTransactions)]
        else [] := by
  unfold on_incoming_transactions import_transactions
  rw [hsync]
  simp

/-- Witness for C4 amended at a blob-carrying broadcast during initial sync. -/
theorem broadcast_ignored_during_initial_sync_witness :
    (on_incoming_transactions (fun _ => false)
        ⟨[], [], ⟨10000, []⟩, [], [], [], true, false, false⟩ 7 [⟨1, true, true⟩]).1
      = ⟨[], [], ⟨10000, []⟩, [], [], [], true, false, false⟩ ∧
    (on_incoming_transactions (fun _ => false)
        ⟨[], [], ⟨10000, []⟩, [], [], [], true, false, false⟩ 7 [⟨1, true, true⟩]).2
      = [(7, ReputationChangeKind.badTransactions)] := by
  have h := broadcast_ignored_during_initial_sync (fun _ => false)
    ⟨[], [], ⟨10000, []⟩, [], [], [], true, false, false⟩ 7 [⟨1, true, true⟩] rfl
  exact ⟨h.1, h.2.trans (by decide)⟩

/-- C4 counterexample: during initial sync, a `Transactions` broadcast that
contains a blob transaction does cause a reputation change for the sending
peer (`BadTransactions`), contradicting "no reputation change is issued for
the sending peer (including when the broadcast contains blob
transactions)". -/
theorem broadcast_during_initial_sync_penalizes_blobs_counterexample :
    (on_incoming_transactions (fun _ => false)
        ⟨[], [], ⟨10000, []⟩, [], [], [], true, false, false⟩ 7 [⟨1, true, true⟩]).2
      ≠ [] := by
  decide

/-- `insertHash` can only add the inserted element. -/
theorem mem_of_mem_insertHash {c : LruCache} {x h : Nat}
    (hm : h ∈ (c.insertHash x).1.elems) : h = x ∨ h ∈ c.elems := by
  unfold LruCache.insertHash at hm
  split at hm
  · simp only at hm
    rcases List.mem_cons.mp hm with rfl | hm'
    · exact Or.inl rfl
    · exact Or.inr (List.mem_of_mem_erase hm')
  · simp only at hm
    have hm' : h ∈ x :: c.elems := List.take_subset _ _ hm
    rcases List.mem_cons.mp hm' with rfl | hm''
    · exact Or.inl rfl
    · exact Or.inr hm''

/-- C8: a hash enters the bad-import cache only when the pool failure is
classified consensus-level bad and the node is not syncing at processing
time; in exactly that case every peer of the pending-by-peer entry is
penalized with `BadTransactions`, and otherwise the cache is untouched and
no penalty is emitted. -/
theorem bad_import_cache_consensus_only (st : ManagerState) (err : PoolError) :
    (∀ h, h ∈ (on_bad_import st err).1.badImports.elems →
      h ∈ st.badImports.elems ∨
        (h = err.hash ∧ err.isBadTransaction = true ∧ st.isSyncing = false)) ∧
    (err.isBadTransaction = true → st.isSyncing = false →
      (on_bad_import st err).2
        = ((lookupEntry st.transactionsByPeers err.hash).getD []).map
            (fun pid => (pid, ReputationChangeKind.badTransactions))) ∧
    (err.isBadTransaction = false ∨ st.isSyncing = true →
      (on_bad_import st err).1.badImports = st.badImports ∧
        (on_bad_import st err).2 = []) := by
  unfold on_bad_import
  dsimp only
  split
  · rename_i hcond
    simp only [Bool.or_eq_true, Bool.not_eq_true'] at hcond
    refine ⟨fun h hm => Or.inl hm, ?_, fun _ => ⟨rfl, rfl⟩⟩
    intro hbad hsync
    rcases hcond with h1 | h2
    · rw [hbad] at h1; cases h1
    · rw [hsync] at h2; cases h2
  · rename_i hcond
    simp only [Bool.or_eq_true, Bool.not_eq_true'] at hcond
    push_neg at hcond
    obtain ⟨hb, hs⟩ := hcond
    have hb' : err.isBadTransaction = true := by
      cases hbe : err.isBadTransaction
      · exact absurd hbe hb
      · rfl
    have hs' : st.isSyncing = false := by
      cases hse : st.isSyncing
      · rfl
      · exact absurd hse hs
    refine ⟨?_, fun _ _ => rfl, ?_⟩
    · intro h hm
      rcases mem_of_mem_insertHash hm with rfl | hm'
      · exact Or.inr ⟨rfl, hb', hs'⟩
      · exact Or.inl hm'
    · intro hcontra
      rcases hcontra with h1 | h2
      · rw [hb'] at h1; cases h1
      · rw [hs'] at h2; cases h2

/-- Witness for C8 at a consensus-bad failure with one pending sender. -/
theorem bad_import_cache_consensus_only_witness :
    (on_bad_import ⟨[], [(5, [7])], ⟨10000, []⟩, [], [], [], false, false, false⟩ ⟨5, true⟩).2
      = [(7, ReputationChangeKind.badTransactions)] := by
  have h :=
    (bad_import_cache_consensus_only
      ⟨[], [(5, [7])], ⟨10000, []⟩, [], [], [], false, false, false⟩ ⟨5, true⟩).2.1 rfl rfl
  exact h.trans (by decide)

/-- Looking up a hash in the table after removing it yields nothing. -/
theorem lookupEntry_removeEntry_self (m : TransactionsByPeers) (h : Nat) :
    lookupEntry (removeEntry m h) h = none := by
  unfold lookupEntry removeEntry
  rw [List.find?_eq_none.mpr]
  · rfl
  · intro e he
    have := (List.mem_filter.mp he).2
    simpa using this

/-- Removing another hash cannot create an entry. -/
theorem lookupEntry_removeEntry_none {m : TransactionsByPeers} {h : Nat} (h' : Nat)
    (hm : lookupEntry m h = none) : lookupEntry (removeEntry m h') h = none := by
  unfold lookupEntry at hm
  unfold lookupEntry removeEntry
  rcases hfind : List.find? (fun e => e.1 == h) m with _ | e
  · rw [List.find?_eq_none.mpr]
    · rfl
    · intro e he
      exact List.find?_eq_none.mp hfind e (List.mem_filter.mp he).1
  · rw [hfind] at hm
    cases hm

/-- `on_bad_import` always removes the pending-by-peer entry. -/
theorem on_bad_import_transactionsByPeers (st : ManagerState) (err : PoolError) :
    (on_bad_import st err).1.transactionsByPeers
      = removeEntry st.transactionsByPeers err.hash := by
  unfold on_bad_import
  dsimp only
  split <;> rfl

/-- After one batch step, a hash with no entry still has no entry. -/
theorem batch_step_lookup_none {acc : ManagerState × List RepEvent} {h : Nat}
    (r : ImportOutcome) (hm : lookupEntry acc.1.transactionsByPeers h = none) :
    lookupEntry
      (match r with
        | .ok hh => (on_good_import acc.1 hh, acc.2)
        | .err e =>
          let s := on_bad_import acc.1 e
          (s.1, acc.2 ++ s.2)).1.transactionsByPeers h = none := by
  rcases r with hh | e
  · exact lookupEntry_removeEntry_none _ hm
  · dsimp only
    rw [on_bad_import_transactionsByPeers]
    exact lookupEntry_removeEntry_none _ hm

/-- Folding further batch results cannot re-create a removed entry. -/
theorem batch_fold_lookup_none (results : List ImportOutcome) :
    ∀ (acc : ManagerState × List RepEvent) (h : Nat),
      lookupEntry acc.1.transactionsByPeers h = none →
      lookupEntry
        (results.foldl
          (fun acc r =>
            match r with
            | .ok hh => (on_good_import acc.1 hh, acc.2)
            | .err e =>
              let s := on_bad_import acc.1 e
              (s.1, acc.2 ++ s.2)) acc).1.transactionsByPeers h = none := by
  induction results with
  | nil => exact fun acc h hm => hm
  | cons r rs ih =>
    intro acc h hm
    exact ih _ h (batch_step_lookup_none r hm)

/-- Every processed result's hash is removed by the batch fold, from any
starting accumulator. -/
theorem batch_fold_clears (results : List ImportOutcome) :
    ∀ (acc : ManagerState × List RepEvent) (r : ImportOutcome), r ∈ results →
      lookupEntry
        (results.foldl
          (fun acc r =>
            match r with
            | .ok hh => (on_good_import acc.1 hh, acc.2)
            | .err e =>
              let s := on_bad_import acc.1 e
              (s.1, acc.2 ++ s.2)) acc).1.transactionsByPeers r.hash = none := by
  induction results with
  | nil => intro acc r hr; cases hr
  | cons x xs ih =>
    intro acc r hr
    rcases List.mem_cons.mp hr with rfl | hr'
    · rw [List.foldl_cons]
      apply batch_fold_lookup_none
      rcases r with hh | e
      · exact lookupEntry_removeEntry_self _ _
      · dsimp only
        rw [on_bad_import_transactionsByPeers]
        exact lookupEntry_removeEntry_self _ _
    · rw [List.foldl_cons]
      exact ih _ r hr'

/-- C9: processing any batch of pool import results removes the
pending-by-peer entry of every processed hash, whatever the result kind
(success, consensus-bad failure, transient failure, and also while
syncing). -/
theorem batch_import_clears_pending_by_peer (st : ManagerState)
    (results : List ImportOutcome) (r : ImportOutcome) (hr : r ∈ results) :
    lookupEntry (on_batch_import_result st results).1.transactionsByPeers r.hash = none := by
  unfold on_batch_import_result
  exact batch_fold_clears results (st, []) r hr

/-- Witness for C9 at a mixed batch (success, consensus-bad, transient,
while syncing). -/
theorem batch_import_clears_pending_by_peer_witness :
    lookupEntry
      (on_batch_import_result
        ⟨[], [(1, [7]), (2, [8]), (3, [9])], ⟨10000, []⟩, [], [], [], false, true, false⟩
        [.ok 1, .err ⟨2, true⟩, .err ⟨3, false⟩]).1.transactionsByPeers 3 = none :=
  batch_import_clears_pending_by_peer
    ⟨[], [(1, [7]), (2, [8]), (3, [9])], ⟨10000, []⟩, [], [], [], false, true, false⟩
    [.ok 1, .err ⟨2, true⟩, .err ⟨3, false⟩] (.err ⟨3, false⟩) (by decide)

/-- One retain step keeps an entry according to `annKeepPred` (independently
of the accumulated flag) and raises the flag according to `annFlagPred`. -/
theorem announcementEntryStep_spec (decideFn : Nat → Nat → Nat → AnnouncementAcceptance)
    (isEth68 flag : Bool) (e : AnnEntry) :
    announcementEntryStep decideFn isEth68 flag e
      = (annKeepPred decideFn isEth68 e, flag || annFlagPred decideFn isEth68 e) := by
  unfold announcementEntryStep annKeepPred annFlagPred
  rcases e with ⟨eh, _ | ⟨ty, size⟩⟩
  · cases isEth68
    · rcases hd : decideFn 0 eh 0 with _ | _ | pen <;>
        cases flag <;>
        simp [hd, AnnouncementAcceptance.isAccept, AnnouncementAcceptance.isRejectPenalize] <;>
        cases pen <;> rfl
    · cases flag <;> simp
  · cases isEth68 <;>
      rcases hd : decideFn ty eh size with _ | _ | pen <;>
      cases flag <;>
      simp [hd, AnnouncementAcceptance.isAccept, AnnouncementAcceptance.isRejectPenalize] <;>
      cases pen <;> rfl

/-- The retain fold, from any accumulator. -/
theorem filterAnnouncementEntries_foldl (decideFn : Nat → Nat → Nat → AnnouncementAcceptance)
    (isEth68 : Bool) (entries : List AnnEntry) :
    ∀ (acc : List AnnEntry) (flag : Bool),
      entries.foldl
        (fun acc e =>
          let r := announcementEntryStep decideFn isEth68 acc.2 e
          (if r.1 then acc.1 ++ [e] else acc.1, r.2)) (acc, flag)
        = (acc ++ entries.filter (annKeepPred decideFn isEth68),
           flag || entries.any (annFlagPred decideFn isEth68)) := by
  induction entries with
  | nil => intro acc flag; simp
  | cons e es ih =>
    intro acc flag
    rw [List.foldl_cons]
    dsimp only
    rw [announcementEntryStep_spec]
    dsimp only
    rw [ih]
    by_cases hk : annKeepPred decideFn isEth68 e = true
    · simp [hk, List.filter_cons, Bool.or_assoc]
    · simp only [Bool.not_eq_true] at hk
      simp [hk, List.filter_cons, Bool.or_assoc]

/-- C3 amended: in the version-conformance and filter-policy pass, a
v2-family (eth68) entry missing (type, size) metadata is always dropped and
flags the peer; a v1-family entry carrying metadata always flags the peer
but is dropped only when the filter policy does not accept it (an accepted
entry is kept); the kept entries are exactly those the characterization
`annKeepPred` accepts, the flag is raised exactly when some entry satisfies
`annFlagPred`, and exactly one `BadAnnouncement` penalty is emitted for the
whole message when the flag was raised. -/
theorem announcement_version_conformance (decideFn : Nat → Nat → Nat → AnnouncementAcceptance)
    (isEth68 : Bool) (entries : List AnnEntry) (peerId : Nat) :
    (filterAnnouncementEntries decideFn isEth68 entries).1
        = entries.filter (annKeepPred decideFn isEth68) ∧
    (filterAnnouncementEntries decideFn isEth68 entries).2
        = entries.any (annFlagPred decideFn isEth68) ∧
    (isEth68 = true →
      ∀ e ∈ (filterAnnouncementEntries decideFn isEth68 entries).1, e.metadata ≠ none) ∧
    announcementPenalties peerId (filterAnnouncementEntries decideFn isEth68 entries).2
      = if entries.any (annFlagPred decideFn isEth68) then
          [(peerId, ReputationChangeKind.badAnnouncement)]
        else [] := by
  have hmain : filterAnnouncementEntries decideFn isEth68 entries
      = (entries.filter (annKeepPred decideFn isEth68),
         entries.any (annFlagPred decideFn isEth68)) := by
    unfold filterAnnouncementEntries
    simpa using filterAnnouncementEntries_foldl decideFn isEth68 entries [] false
  refine ⟨by rw [hmain], by rw [hmain], ?_, by rw [hmain]; rfl⟩
  intro h68 e he
  rw [hmain] at he
  have hkeep := List.of_mem_filter he
  rcases hmeta : e.metadata with _ | m
  · rw [annKeepPred, hmeta, h68] at hkeep
    simp at hkeep
  · simp [hmeta]

/-- Witness for C3 amended: an eth68 message whose first entry lacks
metadata drops that entry, keeps the accepted one, and raises the flag. -/
theorem announcement_version_conformance_witness :
    (filterAnnouncementEntries (fun _ _ _ => .accept) true [⟨7, none⟩, ⟨8, some (2, 4)⟩]).1
        = [⟨8, some (2, 4)⟩] ∧
    (filterAnnouncementEntries (fun _ _ _ => .accept) true [⟨7, none⟩, ⟨8, some (2, 4)⟩]).2
        = true := by
  have h := announcement_version_conformance (fun _ _ _ => .accept) true
    [⟨7, none⟩, ⟨8, some (2, 4)⟩] 0
  exact ⟨h.1.trans (by decide), h.2.1.trans (by decide)⟩

/-- C3 counterexample: in a v1-family (non-eth68) message an entry carrying
(type, size) metadata raises the penalty flag but is NOT dropped when the
filter policy accepts it — the wrong-family entry is retained, contradicting
"the wrong-family entry is dropped". -/
theorem announcement_v1_metadata_kept_counterexample :
    (filterAnnouncementEntries (fun _ _ _ => .accept) false [⟨5, some (0, 10)⟩]).1
        = [⟨5, some (0, 10)⟩] ∧
    (filterAnnouncementEntries (fun _ _ _ => .accept) false [⟨5, some (0, 10)⟩]).2 = true := by
  decide

/-- A peer at iteration index `peer_idx > max_num_full` that is eligible and
has not seen the single broadcastable transaction receives exactly a hash
announcement. -/
theorem processPeer_single_tx_hashbucket (maxNumFull peerIdx : Nat)
    (tx : PropagateTransaction) (p : Peer) (hcan : p.canPropagate = true)
    (hseen : p.seen.containsHash tx.txHash = false) (hidx : maxNumFull < peerIdx) :
    (processPeerPropagation maxNumFull peerIdx [tx] false p).receivedFull = false ∧
    (processPeerPropagation maxNumFull peerIdx [tx] false p).receivedHashes = true := by
  cases hv : p.version <;>
    simp [processPeerPropagation, builderForPeer, sendBuiltToPeer, hcan, hseen, hidx, hv,
      PropagateTransactionsBuilder.newPooled, PooledTransactionsHashesBuilder.new,
      PropagateTransactionsBuilder.push, PooledTransactionsHashesBuilder.push,
      PropagateTransactionsBuilder.isEmptyBuilder, PooledTransactionsHashesBuilder.isEmpty,
      PooledTransactionsHashesBuilder.hashes, PropagateTransactionsBuilder.build,
      PooledTransactionsHashesBuilder.build, NewPooledTransactionHashes.truncate,
      PeerPropagationResult.receivedFull, PeerPropagationResult.receivedHashes,
      SentMsg.isFull]

/-- A peer at iteration index `peer_idx ≤ max_num_full` that is eligible and
has not seen the single broadcastable transaction receives exactly a full
`Transactions` message. -/
theorem processPeer_single_tx_fullbucket (maxNumFull peerIdx : Nat)
    (tx : PropagateTransaction) (p : Peer) (hb : tx.isBroadcastableInFull = true)
    (hcan : p.canPropagate = true) (hseen : p.seen.containsHash tx.txHash = false)
    (hidx : peerIdx ≤ maxNumFull) :
    (processPeerPropagation maxNumFull peerIdx [tx] false p).receivedFull = true ∧
    (processPeerPropagation maxNumFull peerIdx [tx] false p).receivedHashes = false := by
  have hidx' : ¬maxNumFull < peerIdx := by omega
  cases hv : p.version <;>
    simp [processPeerPropagation, builderForPeer, sendBuiltToPeer, hcan, hseen, hidx', hv, hb,
      PropagateTransactionsBuilder.newFull, FullTransactionsBuilder.new,
      PooledTransactionsHashesBuilder.new, PropagateTransactionsBuilder.push,
      FullTransactionsBuilder.push, PooledTransactionsHashesBuilder.isEmpty,
      PooledTransactionsHashesBuilder.hashes, PropagateTransactionsBuilder.isEmptyBuilder,
      FullTransactionsBuilder.isEmptyBuilder, PropagateTransactionsBuilder.build,
      FullTransactionsBuilder.build, PooledTransactionsHashesBuilder.build,
      PeerPropagationResult.receivedFull, PeerPropagationResult.receivedHashes,
      SentMsg.isFull]

/-- Counting full and hash recipients along the peer loop for a single
unseen broadcastable transaction, from an arbitrary start index. -/
theorem propagateLoop_single_tx_counts (maxNumFull : Nat) (tx : PropagateTransaction)
    (hb : tx.isBroadcastableInFull = true) :
    ∀ (peers : List Peer) (idx : Nat),
      (∀ p ∈ peers, p.canPropagate = true) →
      (∀ p ∈ peers, p.seen.containsHash tx.txHash = false) →
      countFullRecipients (propagatePeersLoop maxNumFull [tx] false idx peers)
          = min peers.length (maxNumFull + 1 - idx) ∧
      countHashRecipients (propagatePeersLoop maxNumFull [tx] false idx peers)
          = peers.length - (maxNumFull + 1 - idx) := by
  intro peers
  induction peers with
  | nil =>
    intro idx _ _
    simp [propagatePeersLoop, countFullRecipients, countHashRecipients]
  | cons p ps ih =>
    intro idx hcan hseen
    have hcp := hcan p (by simp)
    have hsp := hseen p (by simp)
    have ihx := ih (idx + 1) (fun q hq => hcan q (by simp [hq]))
      (fun q hq => hseen q (by simp [hq]))
    by_cases hidx : maxNumFull < idx
    · obtain ⟨hf, hh⟩ := processPeer_single_tx_hashbucket maxNumFull idx tx p hcp hsp hidx
      simp only [propagatePeersLoop, countFullRecipients, countHashRecipients,
        List.filter_cons] at ihx ⊢
      rw [hf, hh]
      simp only [Bool.false_eq_true, if_false, if_true]
      simp only [List.length_cons]
      omega
    · obtain ⟨hf, hh⟩ := processPeer_single_tx_fullbucket maxNumFull idx tx p hb hcp hsp
        (by omega)
      simp only [propagatePeersLoop, countFullRecipients, countHashRecipients,
        List.filter_cons] at ihx ⊢
      rw [hf, hh]
      simp only [Bool.false_eq_true, if_false, if_true]
      simp only [List.length_cons]
      omega

/-- C1 amended: propagating a single unseen non-blob transaction with all
`N` connected peers eligible sends the full `Transactions` message to
`min(N, max_full + 1)` peers — the loop compares the 0-based `enumerate`
index with `peer_idx > max_num_full`, so one more peer than `max_full =
⌈√N⌉` receives the full message — and the hash announcement to the
remaining `N - (max_full + 1)` peers. -/
theorem propagation_full_hash_split (peers : List Peer) (tx : PropagateTransaction)
    (hb : tx.isBroadcastableInFull = true)
    (hcan : ∀ p ∈ peers, p.canPropagate = true)
    (hseen : ∀ p ∈ peers, p.seen.containsHash tx.txHash = false) :
    countFullRecipients (propagate_transactions false peers [tx] false)
        = min peers.length (fullPeerCount peers.length + 1) ∧
    countHashRecipients (propagate_transactions false peers [tx] false)
        = peers.length - (fullPeerCount peers.length + 1) := by
  unfold propagate_transactions
  rw [if_neg (by simp)]
  have h := propagateLoop_single_tx_counts (fullPeerCount peers.length) tx hb peers 0 hcan hseen
  simpa using h

/-- Witness for C1 amended at sixteen peers: five receive the full message,
eleven the announcement. -/
theorem propagation_full_hash_split_witness :
    countFullRecipients (propagate_transactions false peersSixteen [smallTx] false) = 5 ∧
    countHashRecipients (propagate_transactions false peersSixteen [smallTx] false) = 11 := by
  have h := propagation_full_hash_split peersSixteen smallTx rfl (by decide) (by decide)
  exact ⟨h.1.trans (by decide), h.2.trans (by decide)⟩

/-- C1 counterexample: with 16 peers, all eligible with empty seen-sets, and
one non-blob transaction, `⌈√16⌉ = 4` but 5 peers receive the full
`Transactions` message and only 11 the hash announcement — not 4 and 12 as
claimed. -/
theorem propagation_full_hash_split_counterexample :
    fullPeerCount 16 = 4 ∧
    countFullRecipients (propagate_transactions false peersSixteen [smallTx] false)
      ≠ fullPeerCount 16 ∧
    countHashRecipients (propagate_transactions false peersSixteen [smallTx] false) ≠ 12 := by
  decide

/-- `push` records exactly one more hash. -/
theorem hashes_push (b : PooledTransactionsHashesBuilder) (tx : PropagateTransaction) :
    (b.push tx).hashes = b.hashes ++ [tx.txHash] := by
  cases b <;> rfl

/-- `extend` records the pushed transactions' hashes in order. -/
theorem hashes_extendTxs (txs : List PropagateTransaction) :
    ∀ b : PooledTransactionsHashesBuilder,
      (b.extendTxs txs).hashes = b.hashes ++ txs.map PropagateTransaction.txHash := by
  induction txs with
  | nil => intro b; simp [PooledTransactionsHashesBuilder.extendTxs]
  | cons t ts ih =>
    intro b
    have h := ih (b.push t)
    rw [PooledTransactionsHashesBuilder.extendTxs, List.foldl_cons]
    rw [PooledTransactionsHashesBuilder.extendTxs] at h
    rw [h, hashes_push]
    simp

/-- Building preserves the recorded hashes. -/
theorem hashes_build (b : PooledTransactionsHashesBuilder) :
    b.build.hashes = b.hashes := by
  cases b <;> rfl

/-- Truncation takes a prefix of the hashes. -/
theorem hashes_truncate (m : NewPooledTransactionHashes) (n : Nat) :
    (m.truncate n).hashes = m.hashes.take n := by
  cases m <;> rfl

/-- A truncated message carries at most `n` entries. -/
theorem numHashes_truncate_le (m : NewPooledTransactionHashes) (n : Nat) :
    (m.truncate n).numHashes ≤ n := by
  rw [NewPooledTransactionHashes.numHashes, hashes_truncate]
  simpa using Nat.min_le_left n m.hashes.length

/-- Hash announcements dispatched by the truncating send block respect the
soft limit. -/
theorem sendBuiltToPeer_hash_msgs_bounded (p : Peer) (msgs : PropagateTransactionsMsgs)
    (m : NewPooledTransactionHashes)
    (hm : SentMsg.hashesMsg m ∈ (sendBuiltToPeer p msgs).msgs) :
    m.numHashes ≤ SOFT_LIMIT_COUNT_HASHES_IN_NEW_POOLED_TRANSACTIONS_BROADCAST_MESSAGE := by
  unfold sendBuiltToPeer at hm
  rcases msgs with ⟨pooledMsg, fullTxs⟩
  rcases pooledMsg with _ | mp <;> rcases fullTxs with _ | ftxs <;> simp at hm
  · rw [hm]
    exact numHashes_truncate_le _ _
  · rw [hm]
    exact numHashes_truncate_le _ _

/-- Every hash announcement produced by one iteration of the
`propagate_transactions` peer loop is truncated to the soft limit. -/
theorem processPeer_hash_msgs_bounded (maxNumFull peerIdx : Nat)
    (toPropagate : List PropagateTransaction) (forced : Bool) (p : Peer)
    (m : NewPooledTransactionHashes)
    (hm : SentMsg.hashesMsg m
      ∈ (processPeerPropagation maxNumFull peerIdx toPropagate forced p).msgs) :
    m.numHashes ≤ SOFT_LIMIT_COUNT_HASHES_IN_NEW_POOLED_TRANSACTIONS_BROADCAST_MESSAGE := by
  unfold processPeerPropagation at hm
  split at hm
  · simp at hm
  · split at hm
    · simp at hm
    · exact sendBuiltToPeer_hash_msgs_bounded _ _ _ hm

/-- The bound holds along the whole peer loop. -/
theorem propagateLoop_hash_msgs_bounded (maxNumFull : Nat)
    (toPropagate : List PropagateTransaction) (forced : Bool) :
    ∀ (peers : List Peer) (idx : Nat) (r : PeerPropagationResult)
      (m : NewPooledTransactionHashes),
      r ∈ propagatePeersLoop maxNumFull toPropagate forced idx peers →
      SentMsg.hashesMsg m ∈ r.msgs →
      m.numHashes ≤ SOFT_LIMIT_COUNT_HASHES_IN_NEW_POOLED_TRANSACTIONS_BROADCAST_MESSAGE := by
  intro peers
  induction peers with
  | nil => intro idx r m hr; cases hr
  | cons p ps ih =>
    intro idx r m hr hm
    rcases List.mem_cons.mp hr with rfl | hr'
    · exact processPeer_hash_msgs_bounded maxNumFull idx toPropagate forced p m hm
    · exact ih (idx + 1) r m hr' hm

/-- C7 amended: hash announcements produced by `propagate_transactions`
(both the hash-bucket message and the spill message of full-bucket peers)
and by the session-establishment broadcast contain at most
`SOFT_LIMIT_COUNT_HASHES_IN_NEW_POOLED_TRANSACTIONS_BROADCAST_MESSAGE`
(4096) entries; the `propagate_hashes_to` and
`propagate_full_transactions_to_peer` paths apply no such truncation. -/
theorem announcement_messages_bounded :
    (∀ (gd : Bool) (peers : List Peer) (txs : List PropagateTransaction) (forced : Bool)
        (r : PeerPropagationResult) (m : NewPooledTransactionHashes),
      r ∈ propagate_transactions gd peers txs forced →
      SentMsg.hashesMsg m ∈ r.msgs →
      m.numHashes ≤ SOFT_LIMIT_COUNT_HASHES_IN_NEW_POOLED_TRANSACTIONS_BROADCAST_MESSAGE) ∧
    (∀ (s g : Bool) (poolTxs : List PropagateTransaction) (p p' : Peer)
        (msg : NewPooledTransactionHashes),
      handle_peer_session_broadcast s g poolTxs p = some (p', msg) →
      msg.numHashes ≤ SOFT_LIMIT_COUNT_HASHES_IN_NEW_POOLED_TRANSACTIONS_BROADCAST_MESSAGE) := by
  constructor
  · intro gd peers txs forced r m hr hm
    unfold propagate_transactions at hr
    split at hr
    · cases hr
    · exact propagateLoop_hash_msgs_bounded _ txs forced peers 0 r m hr hm
  · intro s g poolTxs p p' msg hmsg
    unfold handle_peer_session_broadcast at hmsg
    split at hmsg
    · cases hmsg
    · dsimp only at hmsg
      split at hmsg
      · cases hmsg
      · injection hmsg with hpair
        injection hpair with h1 h2
        rw [← h2, NewPooledTransactionHashes.numHashes, hashes_build, hashes_extendTxs]
        have hn : (PooledTransactionsHashesBuilder.new p.version).hashes = [] := by
          cases p.version <;> rfl
        rw [hn]
        simpa using Nat.min_le_left
          SOFT_LIMIT_COUNT_HASHES_IN_NEW_POOLED_TRANSACTIONS_BROADCAST_MESSAGE poolTxs.length

/-- Witness for C7 amended on the session-establishment path. -/
theorem announcement_messages_bounded_witness :
    (NewPooledTransactionHashes.eth66 [1]).numHashes
      ≤ SOFT_LIMIT_COUNT_HASHES_IN_NEW_POOLED_TRANSACTIONS_BROADCAST_MESSAGE :=
  announcement_messages_bounded.2 false false [⟨100, 1, 0, true⟩]
    ⟨0, ⟨10240, []⟩, .eth66, true⟩ ⟨0, ⟨10240, [1]⟩, .eth66, true⟩
    (.eth66 [1]) (by decide)

/-- C7 counterexample: a forced `propagate_hashes_to` with 4097 pool
transactions sends a single `NewPooledTransactionHashes` message with 4097
entries, exceeding the 4096-entry soft limit — that path never truncates. -/
theorem hash_announce_soft_limit_counterexample :
    (propagate_hashes_to ⟨0, ⟨10240, []⟩, .eth66, true⟩
          ((List.range 4097).map (fun i => ⟨100, i, 0, true⟩)) true).map
        (fun r => r.2.numHashes)
      = some 4097 ∧
    SOFT_LIMIT_COUNT_HASHES_IN_NEW_POOLED_TRANSACTIONS_BROADCAST_MESSAGE < 4097 := by
  constructor
  · have hh : ((PooledTransactionsHashesBuilder.new EthVersion.eth66).extendTxs
        ((List.range 4097).map (fun i => ⟨100, i, 0, true⟩))).build.hashes
        = List.range 4097 := by
      rw [hashes_build, hashes_extendTxs]
      simp [PooledTransactionsHashesBuilder.new, PooledTransactionsHashesBuilder.hashes,
        List.map_map]
      exact List.map_id _
    have hdef : propagate_hashes_to ⟨0, ⟨10240, []⟩, .eth66, true⟩
        ((List.range 4097).map (fun i => ⟨100, i, 0, true⟩)) true
        = if ((PooledTransactionsHashesBuilder.new EthVersion.eth66).extendTxs
              ((List.range 4097).map (fun i => ⟨100, i, 0, true⟩))).build.isEmpty then none
          else some (⟨0, ⟨10240, []⟩, .eth66, true⟩,
            ((PooledTransactionsHashesBuilder.new EthVersion.eth66).extendTxs
              ((List.range 4097).map (fun i => ⟨100, i, 0, true⟩))).build) := rfl
    rw [hdef, if_neg]
    · dsimp only [Option.map]
      rw [NewPooledTransactionHashes.numHashes, hh]
      simp
    · rw [NewPooledTransactionHashes.isEmpty, hh]
      simp [List.range_eq_nil]
  · decide

/-- Membership in a prefix is monotone in the prefix length. -/
theorem mem_take_succ_of_mem_take {x : Nat} : ∀ {l : List Nat} {k : Nat},
    x ∈ l.take k → x ∈ l.take (k + 1) := by
  intro l
  induction l with
  | nil => intro k h; simp at h
  | cons a t ih =>
    intro k h
    cases k with
    | zero => simp at h
    | succ k' =>
      rw [List.take_succ_cons] at h ⊢
      rcases List.mem_cons.mp h with rfl | h'
      · exact List.mem_cons_self _ _
      · exact List.mem_cons_of_mem _ (ih h')

/-- Erasing a different element keeps membership within the same prefix
length. -/
theorem mem_take_erase_of_ne {x y : Nat} : ∀ {l : List Nat} {k : Nat},
    x ∈ l.take k → x ≠ y → x ∈ (l.erase y).take k := by
  intro l
  induction l with
  | nil => intro k h _; simp at h
  | cons a t ih =>
    intro k h hxy
    cases k with
    | zero => simp at h
    | succ k' =>
      rw [List.take_succ_cons] at h
      by_cases hay : a = y
      · subst hay
        rw [List.erase_cons_head]
        rcases List.mem_cons.mp h with rfl | h'
        · exact absurd rfl hxy
        · exact mem_take_succ_of_mem_take h'
      · rw [List.erase_cons_tail (by simpa using hay), List.take_succ_cons]
        rcases List.mem_cons.mp h with rfl | h'
        · exact List.mem_cons_self _ _
        · exact List.mem_cons_of_mem _ (ih h' hxy)

/-- The capacity is unchanged by an insert. -/
theorem capacity_insertHash (c : LruCache) (y : Nat) :
    (c.insertHash y).1.capacity = c.capacity := by
  unfold LruCache.insertHash
  split <;> rfl

/-- An element within the first `k < capacity` cache slots survives one more
insert, within the first `k + 1` slots. -/
theorem mem_take_insertHash {c : LruCache} {x y : Nat} {k : Nat}
    (hx : x ∈ c.elems.take k) (hk : k < c.capacity) :
    x ∈ (c.insertHash y).1.elems.take (k + 1) := by
  unfold LruCache.insertHash
  split
  · dsimp only
    rw [List.take_succ_cons]
    by_cases hxy : x = y
    · subst hxy
      exact List.mem_cons_self _ _
    · exact List.mem_cons_of_mem _ (mem_take_erase_of_ne hx hxy)
  · dsimp only
    rw [List.take_take, min_eq_left (by omega), List.take_succ_cons]
    exact List.mem_cons_of_mem _ hx

/-- An element within the first `k` slots survives a whole sequence of
inserts that fits in the capacity. -/
theorem mem_take_insertAllHashes {x : Nat} : ∀ (zs : List Nat) (c : LruCache) (k : Nat),
    x ∈ c.elems.take k → k + zs.length ≤ c.capacity →
    x ∈ (c.insertAllHashes zs).elems.take (k + zs.length) := by
  intro zs
  induction zs with
  | nil =>
    intro c k hx _
    simpa [LruCache.insertAllHashes] using hx
  | cons z zs ih =>
    intro c k hx hcap
    have hzlen : (z :: zs).length = zs.length + 1 := by simp
    have hk : k < c.capacity := by omega
    have h1 := mem_take_insertHash (y := z) hx hk
    have hcap' : (k + 1) + zs.length ≤ (c.insertHash z).1.capacity := by
      rw [capacity_insertHash]; omega
    have h2 := ih (c.insertHash z).1 (k + 1) h1 hcap'
    have heq : c.insertAllHashes (z :: zs) = ((c.insertHash z).1).insertAllHashes zs := rfl
    rw [heq, hzlen, show k + (zs.length + 1) = (k + 1) + zs.length by omega]
    exact h2

/-- A freshly inserted element sits in the first slot (capacity permitting). -/
theorem mem_take_one_insertHash {c : LruCache} {x : Nat} (hcap : 1 ≤ c.capacity) :
    x ∈ (c.insertHash x).1.elems.take 1 := by
  unfold LruCache.insertHash
  split
  · simp
  · dsimp only
    rw [List.take_take, min_eq_left hcap]
    simp

/-- Every element of a hash sequence that fits in the capacity is in the
cache after inserting the whole sequence. -/
theorem mem_insertAllHashes_of_mem {x : Nat} : ∀ (xs : List Nat) (c : LruCache),
    x ∈ xs → xs.length ≤ c.capacity → x ∈ (c.insertAllHashes xs).elems := by
  intro xs
  induction xs with
  | nil => intro c h _; simp at h
  | cons z zs ih =>
    intro c hmem hcap
    have hzlen : (z :: zs).length = zs.length + 1 := by simp
    have heq : c.insertAllHashes (z :: zs) = ((c.insertHash z).1).insertAllHashes zs := rfl
    rcases List.mem_cons.mp hmem with rfl | hmem'
    · have hx1 : x ∈ (c.insertHash x).1.elems.take 1 :=
        mem_take_one_insertHash (by omega)
      have h2 := mem_take_insertAllHashes zs (c.insertHash x).1 1 hx1
        (by rw [capacity_insertHash]; omega)
      rw [heq]
      exact List.take_subset _ _ h2
    · rw [heq]
      exact ih (c.insertHash z).1 hmem' (by rw [capacity_insertHash]; omega)

/-- Two insert batches compose. -/
theorem insertAllHashes_append (c : LruCache) (a b : List Nat) :
    c.insertAllHashes (a ++ b) = (c.insertAllHashes a).insertAllHashes b := by
  simp [LruCache.insertAllHashes, List.foldl_append]

/-- Membership after two insert batches that jointly fit the capacity. -/
theorem mem_two_insertAllHashes {c : LruCache} {hs1 hs2 : List Nat} {h : Nat}
    (hmem : h ∈ hs1 ∨ h ∈ hs2) (hlen : hs1.length + hs2.length ≤ c.capacity) :
    h ∈ ((c.insertAllHashes hs1).insertAllHashes hs2).elems := by
  rw [← insertAllHashes_append]
  apply mem_insertAllHashes_of_mem
  · rcases hmem with h1 | h2
    · exact List.mem_append_left _ h1
    · exact List.mem_append_right _ h2
  · simpa using hlen

/-- Pushing one transaction records exactly one entry. -/
theorem entriesCount_push (b : PropagateTransactionsBuilder) (tx : PropagateTransaction) :
    (b.push tx).entriesCount = b.entriesCount + 1 := by
  rcases b with pb | fb
  · simp [PropagateTransactionsBuilder.push, PropagateTransactionsBuilder.entriesCount,
      hashes_push]
  · simp only [PropagateTransactionsBuilder.push, PropagateTransactionsBuilder.entriesCount]
    unfold FullTransactionsBuilder.push
    split
    · simp [hashes_push]
      omega
    · dsimp only
      split
      · simp [hashes_push]
        omega
      · simp
        omega

/-- A fold whose steps either skip or push records at most one entry per
list element. -/
theorem entriesCount_cond_foldl (txs : List PropagateTransaction)
    (f : PropagateTransactionsBuilder → PropagateTransaction → PropagateTransactionsBuilder)
    (hf : ∀ b tx, f b tx = b ∨ f b tx = b.push tx) :
    ∀ b, (txs.foldl f b).entriesCount ≤ b.entriesCount + txs.length := by
  induction txs with
  | nil => intro b; simp
  | cons t ts ih =>
    intro b
    rw [List.foldl_cons]
    rcases hf b t with h | h <;> rw [h]
    · have := ih (f b t)
      rw [h] at this
      simp only [List.length_cons]
      omega
    · have := ih (b.push t)
      rw [entriesCount_push] at this
      simp only [List.length_cons]
      omega

/-- Pushing one transaction into the full-transactions builder records
exactly one entry. -/
theorem entriesCountFull_push (b : FullTransactionsBuilder) (tx : PropagateTransaction) :
    (b.push tx).entriesCountFull = b.entriesCountFull + 1 := by
  unfold FullTransactionsBuilder.push
  split
  · simp [FullTransactionsBuilder.entriesCountFull, hashes_push]
    omega
  · dsimp only
    split
    · simp [FullTransactionsBuilder.entriesCountFull, hashes_push]
      omega
    · simp [FullTransactionsBuilder.entriesCountFull]
      omega

/-- A fold over the full-transactions builder whose steps either skip or
push records at most one entry per list element. -/
theorem entriesCountFull_cond_foldl (txs : List PropagateTransaction)
    (f : FullTransactionsBuilder → PropagateTransaction → FullTransactionsBuilder)
    (hf : ∀ b tx, f b tx = b ∨ f b tx = b.push tx) :
    ∀ b, (txs.foldl f b).entriesCountFull ≤ b.entriesCountFull + txs.length := by
  induction txs with
  | nil => intro b; simp
  | cons t ts ih =>
    intro b
    rw [List.foldl_cons]
    rcases hf b t with h | h <;> rw [h]
    · have := ih (f b t)
      rw [h] at this
      simp only [List.length_cons]
      omega
    · have := ih (b.push t)
      rw [entriesCountFull_push] at this
      simp only [List.length_cons]
      omega

/-- The per-peer builder of `propagate_transactions` records at most one
entry per candidate transaction. -/
theorem entriesCount_builderForPeer (maxNumFull peerIdx : Nat)
    (txs : List PropagateTransaction) (forced : Bool) (p : Peer) :
    (builderForPeer maxNumFull peerIdx txs forced p).entriesCount ≤ txs.length := by
  unfold builderForPeer
  dsimp only
  have hinit : (if peerIdx > maxNumFull then PropagateTransactionsBuilder.newPooled p.version
      else PropagateTransactionsBuilder.newFull p.version).entriesCount = 0 := by
    split <;> cases p.version <;> rfl
  split
  · rw [PropagateTransactionsBuilder.extendTxs]
    have h := entriesCount_cond_foldl txs PropagateTransactionsBuilder.push
      (fun _ _ => Or.inr rfl)
      (if peerIdx > maxNumFull then PropagateTransactionsBuilder.newPooled p.version
        else PropagateTransactionsBuilder.newFull p.version)
    omega
  · have h := entriesCount_cond_foldl txs
      (fun b tx => if p.seen.containsHash tx.txHash then b else b.push tx)
      (fun b tx => by
        by_cases hc : p.seen.containsHash tx.txHash = true
        · simp [hc]
        · simp [hc])
      (if peerIdx > maxNumFull then PropagateTransactionsBuilder.newPooled p.version
        else PropagateTransactionsBuilder.newFull p.version)
    omega

/-- Every hash dispatched by the truncating send block is in the peer's seen
set immediately afterwards, provided the builder content fits the seen-set
capacity. -/
theorem sendBuiltToPeer_marks_seen (p : Peer) (b : PropagateTransactionsBuilder)
    (hcap : b.entriesCount ≤ p.seen.capacity) :
    ∀ m ∈ (sendBuiltToPeer p b.build).msgs, ∀ h ∈ m.sentHashes,
      h ∈ (sendBuiltToPeer p b.build).peer.seen.elems := by
  rcases b with pb | fb
  · intro m hm h hh
    simp only [PropagateTransactionsBuilder.entriesCount] at hcap
    simp only [PropagateTransactionsBuilder.build, sendBuiltToPeer] at hm ⊢
    simp at hm
    subst hm
    simp only [SentMsg.sentHashes] at hh
    apply mem_insertAllHashes_of_mem _ _ hh
    calc (pb.build.truncate
          SOFT_LIMIT_COUNT_HASHES_IN_NEW_POOLED_TRANSACTIONS_BROADCAST_MESSAGE).hashes.length
        ≤ pb.build.hashes.length := by
          rw [hashes_truncate]
          simpa using Nat.min_le_right _ _
      _ ≤ p.seen.capacity := by rw [hashes_build]; exact hcap
  · intro m hm h hh
    simp only [PropagateTransactionsBuilder.entriesCount] at hcap
    simp only [PropagateTransactionsBuilder.build, FullTransactionsBuilder.build,
      sendBuiltToPeer] at hm ⊢
    by_cases h1 : fb.pooled.isEmpty = true <;> by_cases h2 : fb.transactions.isEmpty = true <;>
      simp only [h1, h2, if_true, if_false, Bool.true_eq_false] at hm ⊢
    · simp at hm
    · simp at hm
      subst hm
      simp only [SentMsg.sentHashes] at hh
      apply mem_insertAllHashes_of_mem _ _ hh
      calc (fb.transactions.map PropagateTransaction.txHash).length
          = fb.transactions.length := by simp
        _ ≤ p.seen.capacity := by omega
    · simp at hm
      subst hm
      simp only [SentMsg.sentHashes] at hh
      apply mem_insertAllHashes_of_mem _ _ hh
      calc (fb.pooled.build.truncate
            SOFT_LIMIT_COUNT_HASHES_IN_NEW_POOLED_TRANSACTIONS_BROADCAST_MESSAGE).hashes.length
          ≤ fb.pooled.build.hashes.length := by
            rw [hashes_truncate]
            simpa using Nat.min_le_right _ _
        _ ≤ p.seen.capacity := by rw [hashes_build]; omega
    · simp at hm
      have hlen : (fb.pooled.build.truncate
            SOFT_LIMIT_COUNT_HASHES_IN_NEW_POOLED_TRANSACTIONS_BROADCAST_MESSAGE).hashes.length
          + (fb.transactions.map PropagateTransaction.txHash).length ≤ p.seen.capacity := by
        rw [hashes_truncate, List.length_take, List.length_map, hashes_build]
        have hmin := Nat.min_le_right
          SOFT_LIMIT_COUNT_HASHES_IN_NEW_POOLED_TRANSACTIONS_BROADCAST_MESSAGE
          fb.pooled.hashes.length
        omega
      rcases hm with hm | hm <;> subst hm <;> simp only [SentMsg.sentHashes] at hh
      · exact mem_two_insertAllHashes (Or.inl hh) hlen
      · exact mem_two_insertAllHashes (Or.inr hh) hlen

/-- Same for the non-truncating send block of
`propagate_full_transactions_to_peer`. -/
theorem sendBuiltFullToPeer_marks_seen (p : Peer) (fb : FullTransactionsBuilder)
    (hcap : fb.entriesCountFull ≤ p.seen.capacity) :
    ∀ m ∈ (sendBuiltFullToPeer p fb.build).2, ∀ h ∈ m.sentHashes,
      h ∈ (sendBuiltFullToPeer p fb.build).1.seen.elems := by
  intro m hm h hh
  simp only [FullTransactionsBuilder.entriesCountFull] at hcap
  simp only [FullTransactionsBuilder.build, sendBuiltFullToPeer] at hm ⊢
  by_cases h1 : fb.pooled.isEmpty = true <;> by_cases h2 : fb.transactions.isEmpty = true <;>
    simp only [h1, h2, if_true, if_false, Bool.true_eq_false] at hm ⊢
  · simp at hm
  · simp at hm
    subst hm
    simp only [SentMsg.sentHashes] at hh
    apply mem_insertAllHashes_of_mem _ _ hh
    simp only [List.length_map]
    omega
  · simp at hm
    subst hm
    simp only [SentMsg.sentHashes] at hh
    apply mem_insertAllHashes_of_mem _ _ hh
    rw [hashes_build]
    omega
  · simp at hm
    have hlen : fb.pooled.build.hashes.length
        + (fb.transactions.map PropagateTransaction.txHash).length ≤ p.seen.capacity := by
      rw [hashes_build, List.length_map]
      omega
    rcases hm with hm | hm <;> subst hm <;> simp only [SentMsg.sentHashes] at hh
    · exact mem_two_insertAllHashes (Or.inl hh) hlen
    · exact mem_two_insertAllHashes (Or.inr hh) hlen

/-- The per-peer step of `propagate_transactions` marks every dispatched
hash as seen. -/
theorem processPeer_marks_seen (maxNumFull peerIdx : Nat)
    (txs : List PropagateTransaction) (forced : Bool) (p : Peer)
    (hcap : txs.length ≤ p.seen.capacity) :
    ∀ m ∈ (processPeerPropagation maxNumFull peerIdx txs forced p).msgs,
      ∀ h ∈ m.sentHashes,
        h ∈ (processPeerPropagation maxNumFull peerIdx txs forced p).peer.seen.elems := by
  unfold processPeerPropagation
  split
  · intro m hm
    simp at hm
  · split
    · intro m hm
      simp at hm
    · exact sendBuiltToPeer_marks_seen p _
        (le_trans (entriesCount_builderForPeer maxNumFull peerIdx txs forced p) hcap)

/-- The seen-marking property along the whole peer loop. -/
theorem propagateLoop_marks_seen (maxNumFull : Nat) (txs : List PropagateTransaction)
    (forced : Bool) :
    ∀ (peers : List Peer) (idx : Nat),
      (∀ p ∈ peers, txs.length ≤ p.seen.capacity) →
      ∀ r ∈ propagatePeersLoop maxNumFull txs forced idx peers,
        ∀ m ∈ r.msgs, ∀ h ∈ m.sentHashes, h ∈ r.peer.seen.elems := by
  intro peers
  induction peers with
  | nil => intro idx _ r hr; cases hr
  | cons p ps ih =>
    intro idx hcap r hr
    rcases List.mem_cons.mp hr with rfl | hr'
    · exact processPeer_marks_seen maxNumFull idx txs forced p (hcap p (by simp))
    · exact ih (idx + 1) (fun q hq => hcap q (by simp [hq])) r hr'

/-- C2 amended: on the `propagate_transactions` path, the
`propagate_full_transactions_to_peer` path and the `GetPooledTransactions`
response path, every hash the manager dispatches to a peer (inside a full
`Transactions` message or a `NewPooledTransactionHashes` announcement) is
present in that peer's seen set immediately after the send, provided the
dispatched batch fits the seen-set capacity; on the `propagate_hashes_to`
path, however, the source inserts nothing into the seen set — the peer
metadata is returned entirely unchanged. -/
theorem dispatched_hashes_marked_seen :
    (∀ (gd : Bool) (peers : List Peer) (txs : List PropagateTransaction) (forced : Bool),
      (∀ p ∈ peers, txs.length ≤ p.seen.capacity) →
      ∀ r ∈ propagate_transactions gd peers txs forced,
        ∀ m ∈ r.msgs, ∀ h ∈ m.sentHashes, h ∈ r.peer.seen.elems) ∧
    (∀ (p : Peer) (txs : List PropagateTransaction) (forced : Bool)
        (out : Peer × List SentMsg),
      txs.length ≤ p.seen.capacity →
      propagate_full_transactions_to_peer p txs forced = some out →
      ∀ m ∈ out.2, ∀ h ∈ m.sentHashes, h ∈ out.1.seen.elems) ∧
    (∀ (p : Peer) (poolElements : List Nat → List Nat) (request : List Nat),
      (poolElements request).length ≤ p.seen.capacity →
      ∀ h ∈ poolElements request, ∀ p' : Peer,
        (on_get_pooled_transactions (some p) false poolElements request).peer = some p' →
        h ∈ p'.seen.elems) ∧
    (∀ (p : Peer) (txs : List PropagateTransaction) (forced : Bool)
        (out : Peer × NewPooledTransactionHashes),
      propagate_hashes_to p txs forced = some out → out.1 = p) := by
  refine ⟨?_, ?_, ?_, ?_⟩
  · intro gd peers txs forced hcap r hr
    unfold propagate_transactions at hr
    split at hr
    · cases hr
    · exact propagateLoop_marks_seen _ txs forced peers 0 hcap r hr
  · intro p txs forced out hcap hout
    unfold propagate_full_transactions_to_peer at hout
    split at hout
    · cases hout
    · have hout' : sendBuiltFullToPeer p (fullBuilderForPeer p txs forced).build = out :=
        Option.some_injective _ hout
      rw [← hout']
      apply sendBuiltFullToPeer_marks_seen
      refine le_trans ?_ hcap
      unfold fullBuilderForPeer
      dsimp only
      have hinit : (FullTransactionsBuilder.new p.version).entriesCountFull = 0 := by
        cases p.version <;> rfl
      split
      · rw [FullTransactionsBuilder.extendTxs]
        have h := entriesCountFull_cond_foldl txs FullTransactionsBuilder.push
          (fun _ _ => Or.inr rfl) (FullTransactionsBuilder.new p.version)
        omega
      · have h := entriesCountFull_cond_foldl txs
          (fun b tx => if p.seen.containsHash tx.txHash then b else b.push tx)
          (fun b tx => by
            by_cases hc : p.seen.containsHash tx.txHash = true
            · simp [hc]
            · simp [hc])
          (FullTransactionsBuilder.new p.version)
        omega
  · intro p poolElements request hcap h hmem p' hp'
    have hp'' : ({ p with seen := p.seen.insertAllHashes (poolElements request) } : Peer)
        = p' := Option.some_injective _ hp'
    rw [← hp'']
    exact mem_insertAllHashes_of_mem _ _ hmem hcap
  · intro p txs forced out hout
    unfold propagate_hashes_to at hout
    have key : ∀ msg : NewPooledTransactionHashes,
        (if msg.isEmpty then (none : Option (Peer × NewPooledTransactionHashes))
          else some (p, msg)) = some out → out.1 = p := by
      intro msg h
      by_cases he : msg.isEmpty = true
      · rw [if_pos he] at h
        cases h
      · rw [if_neg he] at h
        have h' := Option.some_injective _ h
        rw [← h']
    exact key _ hout

/-- Witness for C2 amended on the `GetPooledTransactions` response path. -/
theorem dispatched_hashes_marked_seen_witness :
    (5 : Nat) ∈ (⟨10240, [5]⟩ : LruCache).elems :=
  dispatched_hashes_marked_seen.2.2.1 ⟨0, ⟨10240, []⟩, .eth66, true⟩ (fun _ => [5]) []
    (by decide) 5 (by decide) ⟨0, ⟨10240, [5]⟩, .eth66, true⟩ (by decide)

/-- C2 counterexample: `propagate_hashes_to` dispatches hash 1 in an
announcement to a peer whose seen set stays empty afterwards — the
dispatched hash is not in the seen set after the send, contradicting the
claim for that dispatch path. -/
theorem propagate_hashes_to_skips_seen_counterexample :
    (propagate_hashes_to ⟨0, ⟨10240, []⟩, .eth66, true⟩ [⟨100, 1, 0, true⟩] false).map
        (fun r => (r.2.hashes, r.1.seen.elems))
      = some ([1], []) ∧ (1 : Nat) ∉ ([] : List Nat) := by
  constructor
  · decide
  · simp

end RethTx
